import Mathlib

/-!
A shallow embedding of the FisInMa Fisher-information engine:
`src/src/solving.py` together with the sensitivity-plotting fragments of
`src/FisInMa/plotting/plotting.py` that the specification describes.

Modelling conventions:
* IEEE floats are modelled exactly by `ℚ` (and by `ℂ` where numpy produces
  complex eigenvalues); where numpy arithmetic can produce non-finite
  values without raising, the type `NpF` with explicit `inf`/`nan`
  constructors is used.
* The external numerical integrator `scipy.integrate.odeint` is an oracle:
  it is a function field `odeintSol` of the model structure, standing for
  `odeint(ode_func, y0, ts, args=(Q, parameters, constants), Dfun=jacobian)`
  and returning one row per requested time, one column per component of the
  augmented state.  Everything downstream of that call is translated from
  the source.
* numpy arrays of statically unknown rank (the `S` and `error_n` tensors of
  `get_S_matrix`) are modelled as total functions from multi-indices;
  `reshape` into 2-D/1-D form is modelled by row-major flattening, i.e. by
  evaluating the function on all in-range multi-indices in row-major order.
-/

namespace FisInMa

/-- `itertools.product(*[range(len(q)) for q in fsm.q_values])`
(solving.py line 23): all index tuples over the given dimension sizes,
first factor outermost, the last index varying fastest.  This is also the
row-major (C) order in which `numpy.reshape` flattens an array whose shape
is `dims`. -/
def prodEnum : List ℕ → List (List ℕ)
  | [] => [[]]
  | d :: ds => (List.range d).flatMap fun i => (prodEnum ds).map (i :: ·)

/-- `np.array(rows).T` for a rectangular list of rows (row-major). -/
def npTranspose (A : List (List ℚ)) : List (List ℚ) :=
  (List.range (A.headD []).length).map fun j => A.map fun row => row.getD j 0

/-- The fields of `FischerModel` that `solving.py` reads
(`src/data_structures.py` itself is not among the sources; the structure
below records exactly the fields the translated code uses).
`times` is the numpy array `fsm.times` of shape `(k1, …, km, n_t)`,
accessed as `fsm.times[index]`; `n_t` is its trailing dimension
`fsm.times.shape[-1]`.  `observable` is the criterion function stored on
the model and called as `fsm.observable(fsm, S, C)`; the `fsm`
self-argument is dropped here (passing the model to one of its own fields
has no counterpart for a Lean structure, and the criterion functions of
solving.py ignore it). -/
structure FischerModel where
  parameters : List ℚ
  q_values : List (List ℚ)
  constants : List ℚ
  n_t : ℕ
  times : List ℕ → List ℚ
  y0 : List ℚ
  t0 : ℚ
  odeintSol : List ℚ → List ℚ → List ℚ → List ℚ → List ℚ → List (List ℚ)
  observable : List (List ℚ) → List (List ℚ) → ℚ

/-- The sizes `(k1, …, km)` of the input-value grids. -/
def qdims (fsm : FischerModel) : List ℕ := fsm.q_values.map List.length

/-- `Q = [fsm.q_values[i][j] for i, j in enumerate(index)]` (line 25). -/
def Qof (fsm : FischerModel) (index : List ℕ) : List ℚ :=
  (fsm.q_values.zip index).map fun p => p.1.getD p.2 0

/-- `r = odeint(fsm.ode_func, y0, np.insert(t, 0, t0), args=(Q, fsm.parameters,
fsm.constants), Dfun=fsm.jacobian).T[:, 1:]` (line 30) for one combination:
transpose the solver output to component rows and drop the first time
column (the prepended `t0`). -/
def rFor (fsm : FischerModel) (index : List ℕ) : List (List ℚ) :=
  (npTranspose
    (fsm.odeintSol fsm.y0 (fsm.t0 :: fsm.times index) (Qof fsm index)
      fsm.parameters fsm.constants)).map (List.drop 1)

/-- Index of the last occurrence of `v` in `l`, if any. -/
def lastIdxOf (l : List ℕ) (v : ℕ) : Option ℕ :=
  (l.foldl (fun (acc : Option ℕ × ℕ) x =>
    (if x = v then some acc.2 else acc.1, acc.2 + 1)) (none, 0)).1

/-- `error_n[:, index] = r[0].reshape(fsm.times.shape[-1], 1) * 0.25`
(line 37), where `error_n` has shape `(n_t, k1, …, km)` and `index` is the
m-tuple of the current combination.  numpy resolves the *inner* tuple as an
integer index array `[i1, …, im]` along axis 1 (advanced indexing), not as
one basic index per `q`-axis.  Following the numpy indexing and
broadcasting rules this means:
* every component of `index` is used as a coordinate on axis 1 (size `k1`)
  and must be `< k1`, else `IndexError`;
* the assignment target has shape `(n_t, m, k2, …, km)` and the value of
  shape `(n_t, 1)` is broadcast against it, which requires `n_t = 1` or
  `n_t` equal to the target's axis-`(m-1)` size;
* cell `(t, index[a], j2, …, jm)` receives the broadcast value at
  coordinates `(t, a, j2, …, jm)`, namely `0.25 * r0[x]` with `x` the
  coordinate that the `n_t`-sized axis of the value aligns with; with
  repeated index components the last occurrence wins (numpy assigns the
  target cells in row-major order).
For `m = 1` all of this collapses to the intended basic write
`error_n[t, i1] = 0.25 * r0[t]`. -/
def fancyWriteFun (n_t m : ℕ) (index : List ℕ) (r0 : List ℚ)
    (err : List ℕ → ℚ) : List ℕ → ℚ := fun c =>
  match c with
  | t :: j1 :: js =>
    match lastIdxOf index j1 with
    | some a =>
      0.25 * r0.getD (if n_t = 1 then 0 else (t :: a :: js).getD (m - 1) 0) 0
    | none => err (t :: j1 :: js)
  | c0 => err c0

def fancyWrite (n_t : ℕ) (dims : List ℕ) (index : List ℕ) (r0 : List ℚ)
    (err : List ℕ → ℚ) : Except String (List ℕ → ℚ) :=
  let m := index.length
  let k1 := dims.headD 0
  let targetShape := n_t :: m :: dims.drop 1
  if ¬ (∀ i ∈ index, i < k1) then
    .error "IndexError: index out of bounds for axis 1"
  else if ¬ (n_t = 1 ∨ n_t = targetShape.getD (m - 1) 0) then
    .error "ValueError: could not broadcast input array"
  else
    .ok (fancyWriteFun n_t m index r0 err)

/-- The mutable state of the combination loop of `get_S_matrix`
(lines 18–38): the `S` tensor of shape `(n_p, n_t, k1, …, km)` and the
`error_n` tensor of shape `(n_t, k1, …, km)` (both initialised by
`np.zeros`), and the accumulating `solutions` list. -/
structure SState where
  S : ℕ → List ℕ → ℚ
  err : List ℕ → ℚ
  solutions : List (List ℚ × List ℚ × List (List ℚ))

/-- One iteration of the `for index in itertools.product(...)` loop of
`get_S_matrix` (lines 23–38).  The write
`S[(slice(None), slice(None)) + index] = r[1:]` (line 33) is basic
multi-axis indexing: `S[i, t, index] = r[1 + i][t]`. -/
def stepCombo (fsm : FischerModel) (st : SState) (index : List ℕ) :
    Except String SState :=
  let t := fsm.times index
  let r := rFor fsm index
  let S1 : ℕ → List ℕ → ℚ := fun i c =>
    match c with
    | tt :: js =>
      if js = index then (r.getD (1 + i) []).getD tt 0 else st.S i (tt :: js)
    | [] => st.S i []
  match fancyWrite fsm.n_t (qdims fsm) index (r.headD []) st.err with
  | .error e => .error e
  | .ok err1 => .ok ⟨S1, err1, st.solutions ++ [(t, Qof fsm index, r)]⟩

/-- The whole combination loop, in `itertools.product` order. -/
def runCombos (fsm : FischerModel) :
    List (List ℕ) → SState → Except String SState
  | [], st => .ok st
  | index :: rest, st =>
    match stepCombo fsm st index with
    | .error e => .error e
    | .ok st1 => runCombos fsm rest st1

/-- Laplace expansion of the determinant along the first row, as a
kernel-computable recursion (used to give `np.linalg.inv` an executable
exact-arithmetic semantics).  `detFin_eq_det` below identifies it with
Mathlib's `Matrix.det`. -/
def detFin : (n : ℕ) → Matrix (Fin n) (Fin n) ℚ → ℚ :=
  Nat.rec (motive := fun n => Matrix (Fin n) (Fin n) ℚ → ℚ)
    (fun _ => 1)
    (fun n ih M =>
      (((List.finRange (n + 1)).map
        (fun (j : Fin (n + 1)) =>
          (-1) ^ (j : ℕ) * M 0 j * ih (M.submatrix Fin.succ j.succAbove))).sum))

/-- The adjugate (transposed cofactor matrix), executable. -/
def adjFin : (n : ℕ) → Matrix (Fin n) (Fin n) ℚ → Matrix (Fin n) (Fin n) ℚ :=
  Nat.rec (motive := fun n => Matrix (Fin n) (Fin n) ℚ → Matrix (Fin n) (Fin n) ℚ)
    (fun _ => fun _ _ => 0)
    (fun n _ M => fun (i : Fin (n + 1)) (j : Fin (n + 1)) =>
      (-1) ^ ((i : ℕ) + (j : ℕ)) * detFin n (M.submatrix j.succAbove i.succAbove))

/-- `np.linalg.inv` (line 43): in exact arithmetic the inverse exists iff
the determinant is nonzero; numpy raises `LinAlgError` on an exactly
singular matrix.  The inverse of a nonsingular matrix is unique, so any
correct formula models it; here `A⁻¹ = det(A)⁻¹ • adj(A)`. -/
def npLinalgInv (n : ℕ) (M : Matrix (Fin n) (Fin n) ℚ) :
    Except String (Matrix (Fin n) (Fin n) ℚ) :=
  if detFin n M = 0 then .error "numpy.linalg.LinAlgError: Singular matrix"
  else .ok fun i j => (detFin n M)⁻¹ * adjFin n M i j

/-- A `Fin`-indexed matrix as a list of rows. -/
def matToList (n : ℕ) (M : Matrix (Fin n) (Fin n) ℚ) : List (List ℚ) :=
  (List.finRange n).map fun i => (List.finRange n).map fun j => M i j

/-- `S.reshape((len(fsm.parameters), np.prod(S.shape[1:])))` (line 40): each
parameter row of the final `S` tensor, flattened row-major over the
remaining shape `(n_t, k1, …, km)`. -/
def sFlatOf (fsm : FischerModel) (st : SState) : List (List ℚ) :=
  (List.range fsm.parameters.length).map fun i =>
    (prodEnum (fsm.n_t :: qdims fsm)).map (st.S i)

/-- `error_n.reshape(np.prod(error_n.shape))` (line 41). -/
def errFlatOf (fsm : FischerModel) (st : SState) : List ℚ :=
  (prodEnum (fsm.n_t :: qdims fsm)).map st.err

/-- `cov_matrix = np.eye(len(error_n), len(error_n)) * error_n**2`
(line 42): broadcasting multiplies column `j` of the identity by
`error_n[j]**2`, giving the diagonal matrix of squared errors. -/
def covOf (fsm : FischerModel) (st : SState) :
    Matrix (Fin (errFlatOf fsm st).length) (Fin (errFlatOf fsm st).length) ℚ :=
  fun i j =>
    (if (i : ℕ) = (j : ℕ) then 1 else 0) * ((errFlatOf fsm st).getD (j : ℕ) 0) ^ 2

/-- `get_S_matrix` (solving.py lines 10–44): the combination loop over
`itertools.product`, the row-major reshape of `S` and `error_n`, the
covariance `cov_matrix = np.eye(...) * error_n**2` and
`C = np.linalg.inv(cov_matrix)` (line 43), returning `S, C, solutions`. -/
def get_S_matrix (fsm : FischerModel) :
    Except String (List (List ℚ) × List (List ℚ) ×
      List (List ℚ × List ℚ × List (List ℚ))) :=
  match runCombos fsm (prodEnum (qdims fsm)) ⟨fun _ _ => 0, fun _ => 0, []⟩ with
  | .error e => .error e
  | .ok st =>
    match npLinalgInv (errFlatOf fsm st).length (covOf fsm st) with
    | .error e => .error e
    | .ok Cm => .ok (sFlatOf fsm st, matToList (errFlatOf fsm st).length Cm,
        st.solutions)

/-- Modelled from the spec for comparison with the code (claim C1): an `S`
whose columns are ordered with each design point's columns contiguous and
the time index varying within them — column `c * n_t + t` holds
(combination `c`, time `t`). -/
def spec_S_layout (fsm : FischerModel) : List (List ℚ) :=
  (List.range fsm.parameters.length).map fun i =>
    (prodEnum (qdims fsm)).flatMap fun index =>
      (List.range fsm.n_t).map fun t => ((rFor fsm index).getD (1 + i) []).getD t 0

/-- `np.eye(n)` as a list of rows. -/
def npEyeL (n : ℕ) : List (List ℚ) :=
  (List.range n).map fun i => (List.range n).map fun j => if i = j then 1 else 0

/-- `calculate_fischer_observable` (solving.py lines 73–78).  `covar`
defaults to `False` in the source; when it is false the `C` returned by
`get_S_matrix` is replaced by `np.eye(S.shape[1])` before the criterion is
evaluated, and the function returns
`(obs, fsm, S, C, r)` with the replaced `C`. -/
def calculate_fischer_observable (fsm : FischerModel) (covar : Bool) :
    Except String (ℚ × FischerModel × List (List ℚ) × List (List ℚ) ×
      List (List ℚ × List ℚ × List (List ℚ))) :=
  match get_S_matrix fsm with
  | .error e => .error e
  | .ok (S, C, r) =>
    let C1 := if covar = false then npEyeL (S.headD []).length else C
    .ok (fsm.observable S C1, fsm, S, C1, r)

/-- The augmented initial state `x0_full` built by `plot_all_sensitivities`
and `plot_all_sensitivities2` (plotting.py lines 76–80 and 129–133):
`np.concatenate((sol.ode_x0, np.zeros(n_x * n_p), np.ones(n_x)))` when
`fsr.ode_dfdx0` is callable, else without the trailing block. -/
def x0_full (ode_x0 : List ℚ) (n_p : ℕ) (has_ode_dfdx0 : Bool) : List ℚ :=
  let n_x := ode_x0.length
  if has_ode_dfdx0 then
    ode_x0 ++ List.replicate (n_x * n_p) 0 ++ List.replicate n_x 1
  else
    ode_x0 ++ List.replicate (n_x * n_p) 0

/-- Modelled from the spec (§4.1, claim C3): the augmented initial state
whose `dx/dp` block is all-zero and whose `dx/dx0` block is the flattened
`n_x × n_x` identity, of total length `n_x + n_x*n_p + n_x*n_x`. -/
def spec_x0_full (ode_x0 : List ℚ) (n_p : ℕ) : List ℚ :=
  let n_x := ode_x0.length
  ode_x0 ++ List.replicate (n_x * n_p) 0 ++
    ((List.range n_x).flatMap fun i =>
      (List.range n_x).map fun j => if i = j then (1 : ℚ) else 0)

/-- Elementwise sum of two sensitivity tensors of axes
(parameter, observable, time) — `term1 + term2` on equal-shape arrays. -/
def tensor3Add (a b : List (List (List ℚ))) : List (List (List ℚ)) :=
  (a.zip b).map fun p =>
    (p.1.zip p.2).map fun q => (q.1.zip q.2).map fun r => r.1 + r.2

/-- `np.concatenate([a, b], axis=0)` on such tensors. -/
def tensor3Concat (a b : List (List (List ℚ))) : List (List (List ℚ)) := a ++ b

/-- The observable-transform branch structure of `plot_all_sensitivities2`
(plotting.py lines 147–182).  The tensors `term1`, `term2` (assigned at
lines 149/152 only under
`if callable(fsr.obs_fun) and callable(fsr.obs_dgdp) and callable(fsr.obs_dgdx)`)
and `term1_add`, `term2_add` (lines 163/169) are supplied as oracles; the
branch logic and the unconditional uses of the locals are translated:
* in the `callable(fsr.ode_dfdx0) and callable(fsr.obs_dgdx0)` branch,
  the `term2_add` computation (line 170) calls `fsr.obs_dgdx` first, which
  raises `TypeError` when the observable callables are missing, and
  otherwise `s = term1_full + term2_full` where
  `term1_full = np.concatenate([term1, term1_add])` and likewise `term2`
  (lines 177–180) — a `NameError` on `term1` when the observable callables
  are missing would be reached next anyway;
* in the `else` branch, `s = term1 + term2` (line 182) reads the
  never-assigned locals and Python raises `NameError` whenever the
  observable callables are missing. -/
def sens2_transform (hasObs hasDfdx0 hasDgdx0 : Bool)
    (term1 term2 term1add term2add : List (List (List ℚ))) :
    Except String (List (List (List ℚ))) :=
  if hasDfdx0 ∧ hasDgdx0 then
    if hasObs then
      .ok (tensor3Add (tensor3Concat term1 term1add)
        (tensor3Concat term2 term2add))
    else .error "TypeError: NoneType object is not callable"
  else
    if hasObs then .ok (tensor3Add term1 term2)
    else .error "NameError: name term1 is not defined"

/-- An IEEE-754 double as produced by numpy arithmetic here: a finite value
(modelled exactly), an infinity, or NaN. -/
inductive NpF where
  | num (x : ℚ)
  | inf
  | ninf
  | nan
deriving DecidableEq

/-- numpy float division of finite values: division by zero emits a
`RuntimeWarning` and evaluates to `±inf` (or `nan` for `0/0`); it does not
raise. -/
def npDiv (x o : ℚ) : NpF :=
  if o = 0 then (if 0 < x then .inf else if x < 0 then .ninf else .nan)
  else .num (x / o)

/-- The relative-sensitivity normalisation of `plot_all_sensitivities2`
(plotting.py lines 185–197), applied when `fsr.relative_sensitivities` is
true.  `s` has axes (parameter-or-x0, observable, time) and `obs` has axes
(observable, time).
`params = sol.parameters + (*sol.ode_x0,)` when `fsr.ode_dfdx0` is callable
(lines 187–190); then `for ii, p in enumerate(params): s[ii] *= p`
(192–193) and `for ii, o in enumerate(obs): s[(slice(None), ii)] /= o`
(196–197).  `s[ii]` (resp. `s[:, ii]`) raises `IndexError` when `ii`
exceeds the corresponding axis; the division is elementwise over the time
axis and silently produces non-finite entries when `o` contains a zero. -/
def relSens (relative hasDfdx0 : Bool) (parameters ode_x0 : List ℚ)
    (s : List (List (List ℚ))) (obs : List (List ℚ)) :
    Except String (List (List (List NpF))) :=
  if relative = false then .ok (s.map fun r2 => r2.map fun r1 => r1.map NpF.num)
  else
    let params := if hasDfdx0 then parameters ++ ode_x0 else parameters
    if s.length < params.length then
      .error "IndexError: list index out of range"
    else
      let s1 : List (List (List ℚ)) := s.mapIdx fun ii (r2 : List (List ℚ)) =>
        match params[ii]? with
        | some p => r2.map fun (r1 : List ℚ) => r1.map (· * p)
        | none => r2
      if ¬ (∀ r2 ∈ s1, obs.length ≤ r2.length) then
        .error "IndexError: index out of bounds for axis 1"
      else
        .ok (s1.map fun r2 => r2.mapIdx fun jj (r1 : List ℚ) =>
          match obs[jj]? with
          | some orow => r1.mapIdx fun tt x => npDiv x (orow.getD tt 0)
          | none => r1.map NpF.num)

/-- `np.linalg.eigvals` (exact semantics): the eigenvalues of a complex
matrix with algebraic multiplicity are exactly the roots of its
characteristic polynomial. -/
noncomputable def npEigvals {n : ℕ} (A : Matrix (Fin n) (Fin n) ℂ) :
    Multiset ℂ :=
  (Matrix.charpoly A).roots

/-- `fischer_sumeigenval` (solving.py lines 56–62):
`F = S.dot(C).dot(S.T); np.sum(np.linalg.eigvals(F))`.  The `fsm` argument
is not read by the source body. -/
noncomputable def fischer_sumeigenval (_fsm : FischerModel) {p k : ℕ}
    (S : Matrix (Fin p) (Fin k) ℂ) (C : Matrix (Fin k) (Fin k) ℂ) : ℂ :=
  (npEigvals (S * C * S.transpose)).sum

/-!  Concrete model instances.  The `odeintSol` oracles below are arbitrary
well-shaped stand-ins for the numerical ODE solver (the engine treats its
output as data); each instance is chosen to exercise one concrete behaviour
of `get_S_matrix`. -/

/-- One parameter, one input dimension with a single value, one time point;
the solver oracle returns `[τ + 1, 2τ]` at time `τ`, so the single
prediction (at `t = 1`) is `2` and the single sensitivity sample is `2`. -/
def fsmW : FischerModel where
  parameters := [1]
  q_values := [[2]]
  constants := []
  n_t := 1
  times := fun _ => [1]
  y0 := [1, 0]
  t0 := 0
  odeintSol := fun _y0 ts _Q _P _C => ts.map (fun τ => [τ + 1, 2 * τ])
  observable := fun S _C => (S.headD []).getD 0 0

/-- One parameter, one input dimension with two values `10, 20`, two time
points `1, 2`; the solver oracle returns `[Q⋅τ, Q + τ]`, so predictions and
sensitivities differ across (combination, time) pairs. -/
def fsm1 : FischerModel where
  parameters := [1]
  q_values := [[10, 20]]
  constants := []
  n_t := 2
  times := fun _ => [1, 2]
  y0 := [1, 0]
  t0 := 0
  odeintSol := fun _y0 ts Q _P _C =>
    ts.map (fun τ => [(Q.headD 0) * τ, Q.headD 0 + τ])
  observable := fun S _C => (S.headD []).getD 0 0

/-- Like `fsmW` but the solver oracle predicts exactly `0` at the sampled
time (`r[0]` is `0` after the `t0` column is dropped). -/
def fsm2 : FischerModel where
  parameters := [1]
  q_values := [[2]]
  constants := []
  n_t := 1
  times := fun _ => [1]
  y0 := [0, 1]
  t0 := 0
  odeintSol := fun _y0 ts _Q _P _C => ts.map (fun _ => [0, 1])
  observable := fun S _C => (S.headD []).getD 0 0

/-- One input dimension with two values; the prediction is `0` exactly for
the second input value `Q = [4]` and `5` otherwise. -/
def fsm2b : FischerModel where
  parameters := [1]
  q_values := [[3, 4]]
  constants := []
  n_t := 1
  times := fun _ => [1]
  y0 := [5, 1]
  t0 := 0
  odeintSol := fun _y0 ts Q _P _C =>
    ts.map (fun _ => [if Q = [4] then 0 else 5, 1])
  observable := fun S _C => (S.headD []).getD 0 0

/-- Two input dimensions of sizes `(k1, k2) = (1, 2)` — the smallest grid on
which `error_n[:, index]` indexes axis 1 (of size 1) with the component
`index[1] = 1`. -/
def fsm8 : FischerModel where
  parameters := [1]
  q_values := [[5], [6, 7]]
  constants := []
  n_t := 1
  times := fun _ => [1]
  y0 := [1, 0]
  t0 := 0
  odeintSol := fun _y0 ts _Q _P _C => ts.map (fun _ => [1, 1])
  observable := fun S _C => (S.headD []).getD 0 0

/-  `Rat` arithmetic is `@[irreducible]` in the library; the concrete
evaluations below need it unfolded for definitional reduction.  -/
attribute [local semireducible] Rat.add Rat.mul Rat.inv Rat.sub Rat.ofScientific

/-! Helper lemmas: list indexing and the combination enumeration. -/

theorem getD_map_of_lt {α β : Type} (l : List α) (f : α → β) {n : ℕ}
    (h : n < l.length) (d : β) (d0 : α) :
    (l.map f).getD n d = f (l.getD n d0) := by
  rw [List.getD_eq_getElem?_getD, List.getD_eq_getElem?_getD,
    List.getElem?_eq_getElem h, List.getElem?_eq_getElem (by simpa using h)]
  simp

theorem getD_range_of_lt {n k : ℕ} (h : k < n) (d : ℕ) :
    (List.range n).getD k d = k := by
  rw [List.getD_eq_getElem?_getD, List.getElem?_eq_getElem (by simpa using h)]
  simp

theorem flatMap_getD_uniform {α β : Type} (P : ℕ) (d : β) (d0 : α) :
    ∀ (l : List α) (f : α → List β), (∀ a ∈ l, (f a).length = P) →
      ∀ {i c : ℕ}, i < l.length → c < P →
      (l.flatMap f).getD (i * P + c) d = (f (l.getD i d0)).getD c d
  | [], _, _, i, _, hi, _ => absurd hi (by simp)
  | a :: l, f, hP, i, c, hi, hc => by
    rw [List.flatMap_cons]
    match i with
    | 0 =>
      have hca : c < (f a).length := by rw [hP a (by simp)]; exact hc
      rw [List.getD_eq_getElem?_getD, Nat.zero_mul, Nat.zero_add,
        List.getElem?_append_left hca, ← List.getD_eq_getElem?_getD]
      simp
    | i + 1 =>
      have hlen : (f a).length ≤ (i + 1) * P + c := by
        rw [hP a (by simp), Nat.succ_mul]
        omega
      rw [List.getD_eq_getElem?_getD, List.getElem?_append_right hlen,
        ← List.getD_eq_getElem?_getD]
      have harith : (i + 1) * P + c - (f a).length = i * P + c := by
        rw [hP a (by simp), Nat.succ_mul]
        omega
      rw [harith,
        flatMap_getD_uniform P d d0 l f (fun b hb => hP b (by simp [hb]))
          (by simpa using hi) hc]
      simp

theorem prodEnum_mem_length {dims : List ℕ} {l : List ℕ}
    (h : l ∈ prodEnum dims) : l.length = dims.length := by
  induction dims generalizing l with
  | nil => simp [prodEnum] at h; simp [h]
  | cons d ds ih =>
    simp only [prodEnum, List.mem_flatMap, List.mem_map, List.mem_range] at h
    obtain ⟨i, _, tl, htl, rfl⟩ := h
    simp [ih htl]

theorem prodEnum_length : ∀ dims : List ℕ, (prodEnum dims).length = dims.prod
  | [] => by simp [prodEnum]
  | d :: ds => by
    rw [show prodEnum (d :: ds) =
        (List.range d).flatMap (fun i => (prodEnum ds).map (i :: ·)) from rfl,
      List.length_flatMap]
    have h1 : List.map (List.length ∘ fun i => (prodEnum ds).map (i :: ·))
        (List.range d) = List.map (fun _ => ds.prod) (List.range d) :=
      List.map_congr_left (fun x _ => by simp [prodEnum_length ds])
    rw [h1, List.map_const', List.sum_replicate, List.length_range,
      smul_eq_mul, List.prod_cons]

theorem prodEnum_cons_getD (d : ℕ) (ds : List ℕ) {t c : ℕ}
    (ht : t < d) (hc : c < (prodEnum ds).length) :
    (prodEnum (d :: ds)).getD (t * (prodEnum ds).length + c) [] =
      t :: (prodEnum ds).getD c [] := by
  have hu : ∀ a ∈ List.range d,
      ((prodEnum ds).map (a :: ·)).length = (prodEnum ds).length := by
    intro a _; simp
  rw [show prodEnum (d :: ds) =
      (List.range d).flatMap (fun i => (prodEnum ds).map (i :: ·)) from rfl,
    flatMap_getD_uniform (prodEnum ds).length [] 0 (List.range d) _ hu
      (by simpa using ht) hc,
    getD_range_of_lt ht, getD_map_of_lt _ _ hc [] []]

theorem mem_prodEnum {dims : List ℕ} {l : List ℕ} :
    l ∈ prodEnum dims ↔ List.Forall₂ (· < ·) l dims := by
  induction dims generalizing l with
  | nil => simp [prodEnum, List.forall₂_nil_right_iff]
  | cons d ds ih =>
    simp only [prodEnum, List.mem_flatMap, List.mem_map, List.mem_range,
      List.forall₂_cons_right_iff]
    constructor
    · rintro ⟨i, hi, tl, htl, rfl⟩
      exact ⟨i, tl, hi, ih.mp htl, rfl⟩
    · rintro ⟨i, tl, hi, htl, rfl⟩
      exact ⟨i, hi, tl, ih.mpr htl, rfl⟩

theorem pairwise_flatMap {α β : Type} {R : β → β → Prop} {S : α → α → Prop}
    {f : α → List β} :
    ∀ {l : List α}, l.Pairwise S → (∀ a ∈ l, (f a).Pairwise R) →
      (∀ a b, S a b → ∀ x ∈ f a, ∀ y ∈ f b, R x y) →
      (l.flatMap f).Pairwise R
  | [], _, _, _ => by simp
  | a :: l, hS, hin, hcross => by
    rw [List.flatMap_cons, List.pairwise_append]
    refine ⟨hin a (by simp), ?_, ?_⟩
    · exact pairwise_flatMap (hS.sublist (by simp)) (fun b hb => hin b (by simp [hb]))
        hcross
    · intro x hx y hy
      rw [List.mem_flatMap] at hy
      obtain ⟨b, hb, hyb⟩ := hy
      exact hcross a b ((List.pairwise_cons.mp hS).1 b hb) x hx y hyb

theorem prodEnum_pairwise_lex :
    ∀ dims : List ℕ, (prodEnum dims).Pairwise (List.Lex (· < ·))
  | [] => by simp [prodEnum]
  | d :: ds => by
    apply pairwise_flatMap (List.pairwise_lt_range d)
    · intro a _
      refine List.Pairwise.map _ ?_ (prodEnum_pairwise_lex ds)
      intro x y hxy
      exact List.Lex.cons hxy
    · intro a b hab x hx y hy
      rw [List.mem_map] at hx hy
      obtain ⟨x0, _, rfl⟩ := hx
      obtain ⟨y0, _, rfl⟩ := hy
      exact List.Lex.rel hab

theorem lex_lt_irrefl : ∀ l : List ℕ, ¬ List.Lex (· < ·) l l
  | [] => by intro h; cases h
  | a :: l => by
    intro h
    cases h with
    | cons h => exact lex_lt_irrefl l h
    | rel h => exact Nat.lt_irrefl a h

theorem prodEnum_nodup (dims : List ℕ) : (prodEnum dims).Nodup := by
  refine (prodEnum_pairwise_lex dims).imp ?_
  intro a b hlex heq
  exact absurd (heq ▸ hlex) (lex_lt_irrefl b)

theorem prodEnum_singleton (k : ℕ) :
    prodEnum [k] = (List.range k).map (fun i => [i]) := by
  have hflat : ∀ l : List ℕ, (l.flatMap fun i => [[i]]) = l.map (fun i => [i]) := by
    intro l
    induction l with
    | nil => simp
    | cons a l ih => simp [ih]
  rw [show prodEnum [k] = (List.range k).flatMap (fun i => [[i]]) from rfl]
  exact hflat _

theorem lastIdxOf_singleton (i v : ℕ) :
    lastIdxOf [i] v = if i = v then some 0 else none := by
  simp [lastIdxOf, List.foldl]

/-! Helper lemmas: the combination loop of `get_S_matrix`. -/

theorem fancyWrite_eq_ok {n_t : ℕ} {dims index : List ℕ} {r0 : List ℚ}
    {err g : List ℕ → ℚ} (h : fancyWrite n_t dims index r0 err = .ok g) :
    g = fancyWriteFun n_t index.length index r0 err := by
  by_cases h1 : ∀ i ∈ index, i < dims.headD 0
  · by_cases h2 : n_t = 1 ∨
        n_t = (n_t :: index.length :: dims.drop 1).getD (index.length - 1) 0
    · have hfw : fancyWrite n_t dims index r0 err =
          .ok (fancyWriteFun n_t index.length index r0 err) := by
        simp only [fancyWrite]
        rw [if_neg (not_not_intro h1), if_neg (not_not_intro h2)]
      rw [hfw] at h
      injection h with h
      exact h.symm
    · have hfw : fancyWrite n_t dims index r0 err =
          .error "ValueError: could not broadcast input array" := by
        simp only [fancyWrite]
        rw [if_neg (not_not_intro h1), if_pos h2]
      rw [hfw] at h
      cases h
  · have hfw : fancyWrite n_t dims index r0 err =
        .error "IndexError: index out of bounds for axis 1" := by
      simp only [fancyWrite]
      rw [if_pos h1]
    rw [hfw] at h
    cases h

theorem fancyWrite_singleton_ok (n_t : ℕ) (dims : List ℕ) (a : ℕ)
    (r0 : List ℚ) (err : List ℕ → ℚ) (ha : a < dims.headD 0) :
    fancyWrite n_t dims [a] r0 err = .ok (fancyWriteFun n_t 1 [a] r0 err) := by
  simp only [fancyWrite]
  rw [if_neg (not_not_intro (by simpa using ha)), if_neg (not_not_intro ?_)]
  · rfl
  · right
    simp

theorem stepCombo_ok_sol {fsm : FischerModel} {st st2 : SState}
    {index : List ℕ} (h : stepCombo fsm st index = .ok st2) :
    st2.solutions =
      st.solutions ++ [(fsm.times index, Qof fsm index, rFor fsm index)] := by
  simp only [stepCombo] at h
  cases hfw : fancyWrite fsm.n_t (qdims fsm) index ((rFor fsm index).headD [])
      st.err with
  | error e => rw [hfw] at h; cases h
  | ok g => rw [hfw] at h; injection h with h; rw [← h]

theorem stepCombo_ok_S {fsm : FischerModel} {st st2 : SState}
    {index : List ℕ} (h : stepCombo fsm st index = .ok st2)
    (i tt : ℕ) (js : List ℕ) :
    st2.S i (tt :: js) =
      if js = index then ((rFor fsm index).getD (1 + i) []).getD tt 0
      else st.S i (tt :: js) := by
  simp only [stepCombo] at h
  cases hfw : fancyWrite fsm.n_t (qdims fsm) index ((rFor fsm index).headD [])
      st.err with
  | error e => rw [hfw] at h; cases h
  | ok g => rw [hfw] at h; injection h with h; rw [← h]

theorem stepCombo_ok_err {fsm : FischerModel} {st st2 : SState}
    {index : List ℕ} (h : stepCombo fsm st index = .ok st2) :
    fancyWrite fsm.n_t (qdims fsm) index ((rFor fsm index).headD []) st.err =
      .ok st2.err := by
  simp only [stepCombo] at h
  cases hfw : fancyWrite fsm.n_t (qdims fsm) index ((rFor fsm index).headD [])
      st.err with
  | error e => rw [hfw] at h; cases h
  | ok g => rw [hfw] at h; injection h with h; rw [← h]

theorem runCombos_solutions (fsm : FischerModel) :
    ∀ (l : List (List ℕ)) (st st1 : SState),
      runCombos fsm l st = .ok st1 →
      st1.solutions = st.solutions ++
        l.map (fun index => (fsm.times index, Qof fsm index, rFor fsm index))
  | [], st, st1, h => by
    injection h with h
    rw [← h]
    simp
  | index :: rest, st, st1, h => by
    rw [runCombos] at h
    cases hstep : stepCombo fsm st index with
    | error e => rw [hstep] at h; cases h
    | ok st2 =>
      rw [hstep] at h
      rw [runCombos_solutions fsm rest st2 st1 h, stepCombo_ok_sol hstep]
      simp

theorem runCombos_S_preserve (fsm : FischerModel) :
    ∀ (l : List (List ℕ)) (st st1 : SState),
      runCombos fsm l st = .ok st1 → ∀ index : List ℕ, index ∉ l →
      ∀ i tt : ℕ, st1.S i (tt :: index) = st.S i (tt :: index)
  | [], st, st1, h, index, _, i, tt => by
    injection h with h
    rw [← h]
  | idx0 :: rest, st, st1, h, index, hni, i, tt => by
    rw [runCombos] at h
    cases hstep : stepCombo fsm st idx0 with
    | error e => rw [hstep] at h; cases h
    | ok st2 =>
      rw [hstep] at h
      rw [runCombos_S_preserve fsm rest st2 st1 h index
        (fun hmem => hni (by simp [hmem])), stepCombo_ok_S hstep]
      rw [if_neg (fun heq => hni (by simp [heq]))]

theorem runCombos_S_written (fsm : FischerModel) :
    ∀ (l : List (List ℕ)) (st st1 : SState),
      runCombos fsm l st = .ok st1 → l.Nodup → ∀ index ∈ l,
      ∀ i tt : ℕ,
      st1.S i (tt :: index) = ((rFor fsm index).getD (1 + i) []).getD tt 0
  | [], _, _, _, _, index, hmem, _, _ => absurd hmem (by simp)
  | idx0 :: rest, st, st1, h, hnd, index, hmem, i, tt => by
    rw [runCombos] at h
    cases hstep : stepCombo fsm st idx0 with
    | error e => rw [hstep] at h; cases h
    | ok st2 =>
      rw [hstep] at h
      rcases List.mem_cons.mp hmem with heq | hmem2
      · subst heq
        rw [runCombos_S_preserve fsm rest st2 st1 h index
          (List.nodup_cons.mp hnd).1, stepCombo_ok_S hstep, if_pos rfl]
      · exact runCombos_S_written fsm rest st2 st1 h
          (List.nodup_cons.mp hnd).2 index hmem2 i tt

theorem runCombos_err_preserve_m1 (fsm : FischerModel) (c : ℕ) :
    ∀ (l : List (List ℕ)) (st st1 : SState),
      runCombos fsm l st = .ok st1 → (∀ x ∈ l, ∃ a, a ≠ c ∧ x = [a]) →
      ∀ tt : ℕ, st1.err [tt, c] = st.err [tt, c]
  | [], st, st1, h, _, tt => by
    injection h with h
    rw [← h]
  | idx0 :: rest, st, st1, h, hl, tt => by
    rw [runCombos] at h
    cases hstep : stepCombo fsm st idx0 with
    | error e => rw [hstep] at h; cases h
    | ok st2 =>
      rw [hstep] at h
      obtain ⟨a, hac, rfl⟩ := hl idx0 (by simp)
      rw [runCombos_err_preserve_m1 fsm c rest st2 st1 h
        (fun x hx => hl x (by simp [hx])) tt]
      rw [fancyWrite_eq_ok (stepCombo_ok_err hstep)]
      simp [fancyWriteFun, lastIdxOf_singleton, hac]

theorem runCombos_err_written_m1 (fsm : FischerModel) (c : ℕ) :
    ∀ (l : List (List ℕ)) (st st1 : SState),
      runCombos fsm l st = .ok st1 → (∀ x ∈ l, ∃ a, x = [a]) → l.Nodup →
      [c] ∈ l → ∀ tt : ℕ, tt < fsm.n_t →
      st1.err [tt, c] = 0.25 * ((rFor fsm [c]).headD []).getD tt 0
  | [], _, _, _, _, _, hmem, _, _ => absurd hmem (by simp)
  | idx0 :: rest, st, st1, h, hsing, hnd, hmem, tt, htt => by
    rw [runCombos] at h
    cases hstep : stepCombo fsm st idx0 with
    | error e => rw [hstep] at h; cases h
    | ok st2 =>
      rw [hstep] at h
      rcases List.mem_cons.mp hmem with heq | hmem2
      · subst heq
        have hrest : ∀ x ∈ rest, ∃ a, a ≠ c ∧ x = [a] := by
          intro x hx
          obtain ⟨a, rfl⟩ := hsing x (by simp [hx])
          refine ⟨a, fun hac => ?_, rfl⟩
          subst hac
          exact (List.nodup_cons.mp hnd).1 hx
        rw [runCombos_err_preserve_m1 fsm c rest st2 st1 h hrest tt]
        rw [fancyWrite_eq_ok (stepCombo_ok_err hstep)]
        by_cases h1 : fsm.n_t = 1
        · have htt0 : tt = 0 := by omega
          subst htt0
          simp [fancyWriteFun, lastIdxOf_singleton, h1]
        · simp [fancyWriteFun, lastIdxOf_singleton, h1]
      · exact runCombos_err_written_m1 fsm c rest st2 st1 h
          (fun x hx => hsing x (by simp [hx])) (List.nodup_cons.mp hnd).2
          hmem2 tt htt

/-! Helper lemmas: the executable determinant, and `get_S_matrix` itself. -/

theorem detFin_zero (M : Matrix (Fin 0) (Fin 0) ℚ) : detFin 0 M = 1 := rfl

theorem detFin_succ (n : ℕ) (M : Matrix (Fin (n + 1)) (Fin (n + 1)) ℚ) :
    detFin (n + 1) M =
      (((List.finRange (n + 1)).map
        (fun (j : Fin (n + 1)) =>
          (-1) ^ (j : ℕ) * M 0 j *
            detFin n (M.submatrix Fin.succ j.succAbove))).sum) := rfl

theorem detFin_eq_det :
    ∀ (n : ℕ) (M : Matrix (Fin n) (Fin n) ℚ), detFin n M = M.det
  | 0, M => by simp [detFin_zero, Matrix.det_isEmpty]
  | n + 1, M => by
    rw [Matrix.det_succ_row_zero, Fin.sum_univ_def, detFin_succ]
    congr 1
    apply List.map_congr_left
    intro j _
    rw [detFin_eq_det n]

theorem detFin_cov (n : ℕ) (e : ℕ → ℚ) :
    detFin n (fun i j => (if (i : ℕ) = (j : ℕ) then 1 else 0) * (e (j : ℕ)) ^ 2)
      = ∏ i : Fin n, (e (i : ℕ)) ^ 2 := by
  have hdiag : (fun (i j : Fin n) =>
      (if (i : ℕ) = (j : ℕ) then (1 : ℚ) else 0) * (e (j : ℕ)) ^ 2)
      = Matrix.diagonal (fun i : Fin n => (e (i : ℕ)) ^ 2) := by
    funext i j
    by_cases h : i = j
    · subst h
      rw [Matrix.diagonal_apply_eq, if_pos rfl, one_mul]
    · rw [Matrix.diagonal_apply_ne _ h,
        if_neg (fun hc => h (Fin.ext hc)), zero_mul]
  rw [hdiag, detFin_eq_det, Matrix.det_diagonal]

theorem get_S_matrix_ok {fsm : FischerModel} {S C : List (List ℚ)}
    {sols : List (List ℚ × List ℚ × List (List ℚ))}
    (h : get_S_matrix fsm = .ok (S, C, sols)) :
    ∃ st, runCombos fsm (prodEnum (qdims fsm)) ⟨fun _ _ => 0, fun _ => 0, []⟩
        = .ok st ∧ S = sFlatOf fsm st ∧ sols = st.solutions := by
  simp only [get_S_matrix] at h
  cases hrun : runCombos fsm (prodEnum (qdims fsm))
      ⟨fun _ _ => 0, fun _ => 0, []⟩ with
  | error e => rw [hrun] at h; cases h
  | ok st =>
    rw [hrun] at h
    have h2 : (match npLinalgInv (errFlatOf fsm st).length (covOf fsm st) with
        | Except.error e => Except.error e
        | Except.ok Cm => Except.ok (sFlatOf fsm st,
            matToList (errFlatOf fsm st).length Cm, st.solutions)) =
        Except.ok (S, C, sols) := h
    refine ⟨st, rfl, ?_⟩
    cases hinv : npLinalgInv (errFlatOf fsm st).length (covOf fsm st) with
    | error e => rw [hinv] at h2; cases h2
    | ok Cm =>
      rw [hinv] at h2
      injection h2 with h2
      injection h2 with h1 h2
      injection h2 with h3 h4
      exact ⟨h1.symm, h4.symm⟩

theorem get_S_matrix_eq_of_run {fsm : FischerModel} {st : SState}
    (hrun : runCombos fsm (prodEnum (qdims fsm)) ⟨fun _ _ => 0, fun _ => 0, []⟩
      = .ok st) :
    get_S_matrix fsm =
      match npLinalgInv (errFlatOf fsm st).length (covOf fsm st) with
      | Except.error e => Except.error e
      | Except.ok Cm => Except.ok (sFlatOf fsm st,
          matToList (errFlatOf fsm st).length Cm, st.solutions) := by
  simp only [get_S_matrix]
  rw [hrun]

theorem sFlatOf_length (fsm : FischerModel) (st : SState) :
    (sFlatOf fsm st).length = fsm.parameters.length := by
  simp [sFlatOf]

theorem sFlatOf_row_length (fsm : FischerModel) (st : SState) :
    ∀ row ∈ sFlatOf fsm st, row.length = fsm.n_t * (qdims fsm).prod := by
  intro row hrow
  simp only [sFlatOf, List.mem_map] at hrow
  obtain ⟨i, _, rfl⟩ := hrow
  rw [List.length_map, prodEnum_length, List.prod_cons]

theorem sFlatOf_entry (fsm : FischerModel) (st : SState) {i tt c : ℕ}
    (hi : i < fsm.parameters.length) (ht : tt < fsm.n_t)
    (hc : c < (prodEnum (qdims fsm)).length) :
    ((sFlatOf fsm st).getD i []).getD
        (tt * (prodEnum (qdims fsm)).length + c) 0 =
      st.S i (tt :: (prodEnum (qdims fsm)).getD c []) := by
  have h1 : (sFlatOf fsm st).getD i [] =
      (prodEnum (fsm.n_t :: qdims fsm)).map (st.S i) := by
    rw [sFlatOf, getD_map_of_lt _ _ (by simpa using hi) [] 0,
      getD_range_of_lt hi]
  rw [h1]
  have hbound : tt * (prodEnum (qdims fsm)).length + c <
      (prodEnum (fsm.n_t :: qdims fsm)).length := by
    rw [prodEnum_length (fsm.n_t :: qdims fsm), List.prod_cons,
      ← prodEnum_length (qdims fsm)]
    have hstep : tt * (prodEnum (qdims fsm)).length + c <
        (tt + 1) * (prodEnum (qdims fsm)).length := by
      rw [Nat.succ_mul]
      omega
    exact lt_of_lt_of_le hstep
      (Nat.mul_le_mul_right _ (Nat.succ_le_of_lt ht))
  rw [getD_map_of_lt _ _ hbound 0 [], prodEnum_cons_getD fsm.n_t _ ht hc]

theorem runCombos_ok_m1 (fsm : FischerModel) (k : ℕ) (hq : qdims fsm = [k]) :
    ∀ (l : List (List ℕ)) (st : SState),
      (∀ x ∈ l, ∃ a, a < k ∧ x = [a]) →
      ∃ st1, runCombos fsm l st = .ok st1
  | [], st, _ => ⟨st, rfl⟩
  | idx0 :: rest, st, hl => by
    obtain ⟨a, hak, rfl⟩ := hl idx0 (by simp)
    have hg := fancyWrite_singleton_ok fsm.n_t (qdims fsm) a
      ((rFor fsm [a]).headD []) st.err (by rw [hq]; simpa using hak)
    have hstep : ∃ st2, stepCombo fsm st [a] = .ok st2 := by
      simp only [stepCombo]
      rw [hg]
      exact ⟨_, rfl⟩
    obtain ⟨st2, hstep⟩ := hstep
    obtain ⟨st1, h1⟩ := runCombos_ok_m1 fsm k hq rest st2
      (fun x hx => hl x (by simp [hx]))
    refine ⟨st1, ?_⟩
    rw [runCombos, hstep]
    exact h1

theorem getD_mem {α : Type} {l : List α} {n : ℕ} (h : n < l.length) (d : α) :
    l.getD n d ∈ l := by
  rw [List.getD_eq_getElem?_getD, List.getElem?_eq_getElem h]
  exact List.getElem_mem h

/-! The claims. -/

/-- C1 (counterexample): on a grid with two input values and two time
points, the `S` returned by `get_S_matrix` is not laid out with each design
point's columns contiguous and times varying within them (the layout the
claim states, built here as `spec_S_layout` from the spec's words): the
actual flattening puts the time index on the outer axis. -/
theorem c1_layout_counterexample :
    (get_S_matrix fsm1).toOption.map Prod.fst = some [[11, 21, 12, 22]] ∧
    spec_S_layout fsm1 = [[11, 12, 21, 22]] ∧
    ([[11, 21, 12, 22]] : List (List ℚ)) ≠ [[11, 12, 21, 22]] :=
  ⟨by decide, by decide, by decide⟩

/-- C1 (amended): for every model whose solver output is well-shaped, the
`S` of `get_S_matrix fsm = .ok (S, C, sols)` has shape
`(n_p, n_t * k1 * ⋯ * km)`, and the column holding (combination `c`,
time `t`) is `t * (k1⋯km) + c`: columns of one *time* are contiguous, with
the design points varying within them in enumerator order — not the other
way around as the claim states. -/
theorem c1_S_layout (fsm : FischerModel) (S C : List (List ℚ))
    (sols : List (List ℚ × List ℚ × List (List ℚ)))
    (h : get_S_matrix fsm = .ok (S, C, sols))
    (_hshape : ∀ index ∈ prodEnum (qdims fsm),
      (rFor fsm index).length = 1 + fsm.parameters.length ∧
      ∀ row ∈ rFor fsm index, row.length = fsm.n_t) :
    S.length = fsm.parameters.length ∧
    (∀ row ∈ S, row.length = fsm.n_t * (qdims fsm).prod) ∧
    (∀ i tt c : ℕ, i < fsm.parameters.length → tt < fsm.n_t →
      c < (qdims fsm).prod →
      (S.getD i []).getD (tt * (qdims fsm).prod + c) 0 =
        ((rFor fsm ((prodEnum (qdims fsm)).getD c [])).getD (1 + i) []).getD
          tt 0) := by
  obtain ⟨st, hrun, hS, _⟩ := get_S_matrix_ok h
  subst hS
  refine ⟨sFlatOf_length fsm st, sFlatOf_row_length fsm st, ?_⟩
  intro i tt c hi htt hc
  rw [← prodEnum_length (qdims fsm)] at hc
  rw [← prodEnum_length (qdims fsm), sFlatOf_entry fsm st hi htt hc,
    runCombos_S_written fsm _ _ _ hrun (prodEnum_nodup _) _ (getD_mem hc [])]

/-- C2 (counterexample): when the predicted value at the single sampled
time is exactly zero, `get_S_matrix` does not return a well-defined finite
`C`: the diagonal covariance is exactly singular and `np.linalg.inv`
raises `LinAlgError`; no numeric floor is applied. -/
theorem c2_zero_prediction_counterexample :
    ((rFor fsm2 [0]).headD []).getD 0 0 = 0 ∧
    get_S_matrix fsm2 = .error "numpy.linalg.LinAlgError: Singular matrix" :=
  ⟨by decide, by rfl⟩

/-- C2 (amended): for a single-input-dimension grid, whenever some
predicted value at a sampled time is exactly zero, the error vector
contains a zero, `diag(error²)` is singular, and `get_S_matrix` fails with
numpy's singular-matrix error instead of returning `C` — there is no
numeric floor, but no infinite/NaN value is silently produced either. -/
theorem c2_singular_covariance (fsm : FischerModel) (k c tt : ℕ)
    (hq : qdims fsm = [k]) (hc : c < k) (htt : tt < fsm.n_t)
    (h0 : ((rFor fsm [c]).headD []).getD tt 0 = 0) :
    get_S_matrix fsm = .error "numpy.linalg.LinAlgError: Singular matrix" := by
  have hsing : ∀ x ∈ prodEnum (qdims fsm), ∃ a, a < k ∧ x = [a] := by
    intro x hx
    rw [hq, prodEnum_singleton] at hx
    obtain ⟨a, ha, rfl⟩ := List.mem_map.mp hx
    exact ⟨a, List.mem_range.mp ha, rfl⟩
  obtain ⟨st, hrun⟩ := runCombos_ok_m1 fsm k hq (prodEnum (qdims fsm))
    ⟨fun _ _ => 0, fun _ => 0, []⟩ hsing
  have hmemc : [c] ∈ prodEnum (qdims fsm) := by
    rw [hq, prodEnum_singleton]
    exact List.mem_map.mpr ⟨c, List.mem_range.mpr hc, rfl⟩
  have herr : st.err [tt, c] = 0 := by
    rw [runCombos_err_written_m1 fsm c _ _ _ hrun
      (fun x hx => (hsing x hx).imp (fun a ha => ha.2)) (prodEnum_nodup _)
      hmemc tt htt, h0, mul_zero]
  have hLk : (prodEnum (qdims fsm)).length = k := by
    rw [hq, prodEnum_singleton, List.length_map, List.length_range]
  have hpos : tt * (prodEnum (qdims fsm)).length + c <
      (errFlatOf fsm st).length := by
    rw [errFlatOf, List.length_map, prodEnum_length (fsm.n_t :: qdims fsm),
      List.prod_cons, ← prodEnum_length (qdims fsm)]
    have hstep : tt * (prodEnum (qdims fsm)).length + c <
        (tt + 1) * (prodEnum (qdims fsm)).length := by
      rw [Nat.succ_mul, hLk]
      omega
    exact lt_of_lt_of_le hstep
      (Nat.mul_le_mul_right _ (Nat.succ_le_of_lt htt))
  have hflat : (errFlatOf fsm st).getD
      (tt * (prodEnum (qdims fsm)).length + c) 0 = 0 := by
    have hc2 : c < (prodEnum (qdims fsm)).length := by rw [hLk]; exact hc
    have hbound : tt * (prodEnum (qdims fsm)).length + c <
        (prodEnum (fsm.n_t :: qdims fsm)).length := by
      rw [errFlatOf, List.length_map] at hpos
      exact hpos
    rw [errFlatOf, getD_map_of_lt _ _ hbound 0 [],
      prodEnum_cons_getD fsm.n_t _ htt hc2]
    have hgc : (prodEnum (qdims fsm)).getD c [] = [c] := by
      rw [hq, prodEnum_singleton,
        getD_map_of_lt _ _ (by simpa using hc) [] 0, getD_range_of_lt hc]
    rw [hgc]
    exact herr
  have hdet : detFin (errFlatOf fsm st).length (covOf fsm st) = 0 := by
    have h1 : detFin (errFlatOf fsm st).length (covOf fsm st) =
        ∏ i : Fin (errFlatOf fsm st).length,
          ((errFlatOf fsm st).getD (i : ℕ) 0) ^ 2 :=
      detFin_cov (errFlatOf fsm st).length
        (fun x => (errFlatOf fsm st).getD x 0)
    rw [h1]
    refine Finset.prod_eq_zero
      (Finset.mem_univ (⟨tt * (prodEnum (qdims fsm)).length + c, hpos⟩ :
        Fin (errFlatOf fsm st).length)) ?_
    show ((errFlatOf fsm st).getD (tt * (prodEnum (qdims fsm)).length + c) 0)
        ^ 2 = 0
    rw [hflat]
    norm_num
  have hinv : npLinalgInv (errFlatOf fsm st).length (covOf fsm st) =
      .error "numpy.linalg.LinAlgError: Singular matrix" := by
    simp only [npLinalgInv]
    rw [if_pos hdet]
  rw [get_S_matrix_eq_of_run hrun, hinv]

/-- C7 (confirmed): `get_S_matrix` produces one `(t, Q, r)` solution entry
per input combination, in exactly the `itertools.product` order over the
index tuples: the enumeration has `k1⋯km` entries, contains precisely the
pointwise-bounded index tuples, and is lexicographically sorted (first
index outermost, last index varying fastest); entry `c` holds that
combination's time row `fsm.times[index]`, its input values `Q`, and the
integrator output for that combination. -/
theorem c7_enumeration_order (fsm : FischerModel) (S C : List (List ℚ))
    (sols : List (List ℚ × List ℚ × List (List ℚ)))
    (h : get_S_matrix fsm = .ok (S, C, sols)) :
    sols = (prodEnum (qdims fsm)).map
      (fun index => (fsm.times index, Qof fsm index, rFor fsm index)) ∧
    (prodEnum (qdims fsm)).length = (qdims fsm).prod ∧
    (∀ l : List ℕ,
      l ∈ prodEnum (qdims fsm) ↔ List.Forall₂ (· < ·) l (qdims fsm)) ∧
    (prodEnum (qdims fsm)).Pairwise (List.Lex (· < ·)) := by
  obtain ⟨st, hrun, _, hsols⟩ := get_S_matrix_ok h
  refine ⟨?_, prodEnum_length _, fun l => mem_prodEnum,
    prodEnum_pairwise_lex _⟩
  rw [hsols, runCombos_solutions fsm _ _ _ hrun]
  simp

/-- C8 (code evaluated at the failing input): on the two-input-dimension
grid of `fsm8` (`k1 = 1`, `k2 = 2`) with every prediction equal to `1`
(nonzero), `get_S_matrix` raises `IndexError` from the
`error_n[:, index] = …` write instead of building the claimed diagonal
`C` with entries `1/(0.25·value)²`: the inner tuple is an advanced index
on axis 1, and at combination `(0, 1)` the component `1` exceeds axis 1's
size `1`. -/
theorem c8_error_model_fancy_indexing :
    qdims fsm8 = [1, 2] ∧
    get_S_matrix fsm8 = .error "IndexError: index out of bounds for axis 1" :=
  ⟨by decide, by rfl⟩

/-- C10 (confirmed): with `covar = False` (the default),
`calculate_fischer_observable` discards the inverse covariance produced by
`get_S_matrix`, evaluates the criterion with the identity matrix
`np.eye(S.shape[1])` in its place — so the returned score does not depend
on the error model — and passes `S`, the solutions and the model through
unchanged; when there is at least one parameter, `S.shape[1]` is the
total sample count `n_t * k1⋯km`. -/
theorem c10_covar_false (fsm : FischerModel) (S C : List (List ℚ))
    (sols : List (List ℚ × List ℚ × List (List ℚ)))
    (h : get_S_matrix fsm = .ok (S, C, sols)) :
    calculate_fischer_observable fsm false =
      .ok (fsm.observable S (npEyeL (S.headD []).length), fsm, S,
        npEyeL (S.headD []).length, sols) ∧
    (fsm.parameters.length ≠ 0 →
      (S.headD []).length = fsm.n_t * (qdims fsm).prod) := by
  constructor
  · simp only [calculate_fischer_observable]
    rw [h]
    rfl
  · intro hp
    obtain ⟨st, hrun, hS, _⟩ := get_S_matrix_ok h
    subst hS
    have hne : sFlatOf fsm st ≠ [] := by
      intro hnil
      rw [← sFlatOf_length fsm st, hnil] at hp
      exact hp rfl
    cases hl : sFlatOf fsm st with
    | nil => exact absurd hl hne
    | cons row tl =>
      have hrow : row ∈ sFlatOf fsm st := by rw [hl]; simp
      exact sFlatOf_row_length fsm st row hrow

/-- C3 (code evaluated at the failing input): for a two-dimensional state
(`ode_x0 = [1, 2]`, `n_p = 1`) with initial-condition sensitivities
enabled, the `x0_full` built by the plotting routines is
`[1, 2, 0, 0, 1, 1]` — an all-ones block of length `n_x` — of total length
`6 ≠ n_x + n_x·n_p + n_x² = 8`, so the `dx/dx0` block is not the flattened
identity; its sensitivity part (length 4) cannot even be reshaped into
`(n_x, n_p + n_x, -1) = (2, 3, ·)` as the same routines later require. -/
theorem c3_x0_full_not_identity :
    x0_full [1, 2] 1 true = [1, 2, 0, 0, 1, 1] ∧
    (x0_full [1, 2] 1 true).length = 6 ∧
    (2 : ℕ) + 2 * 1 + 2 * 2 = 8 ∧
    (x0_full [1, 2] 1 true).length ≠ 2 + 2 * 1 + 2 * 2 ∧
    spec_x0_full [1, 2] 1 = [1, 2, 0, 0, 1, 0, 0, 1] ∧
    x0_full [1, 2] 1 true ≠ spec_x0_full [1, 2] 1 ∧
    (x0_full [1, 2] 1 true).length - 2 ≠ 2 * (1 + 2) := by
  refine ⟨by decide, by decide, by decide, by decide, by decide, by decide,
    by decide⟩

/-- C6 (code evaluated at the failing input): when no observable is
defined (`obs_fun`, `obs_dgdp`, `obs_dgdx` not callable — and hence
`obs_dgdx0` not callable either), the observable transform of
`plot_all_sensitivities2` does not fall back to the raw state
sensitivities: the line `s = term1 + term2` reads locals that were never
assigned and raises `NameError`, for every tensor the earlier lines could
have produced. -/
theorem c6_no_observable_name_error (hasDfdx0 : Bool)
    (term1 term2 term1add term2add : List (List (List ℚ))) :
    sens2_transform false hasDfdx0 false term1 term2 term1add term2add =
      .error "NameError: name term1 is not defined" := by
  simp [sens2_transform]

/-- C9 (confirmed): the sum-of-eigenvalues criterion equals the trace of
`F = S·C·Sᵀ` — `fischer_sumeigenval` sums the roots of the characteristic
polynomial of `F`, which is the trace of `F`, for *every* `S` and `C`
(in particular whenever `F` is real symmetric, as the claim states). -/
theorem c9_sumeigenval_eq_trace (fsm : FischerModel) {p k : ℕ}
    (S : Matrix (Fin p) (Fin k) ℂ) (C : Matrix (Fin k) (Fin k) ℂ) :
    fischer_sumeigenval fsm S C = Matrix.trace (S * C * S.transpose) :=
  (Matrix.trace_eq_sum_roots_charpoly _).symm

/-- C5 (counterexample): in relative-sensitivity mode with an observable
value of exactly zero, the computation does not raise: it returns
successfully with an infinite entry (`6 / 0 = inf` under numpy
zero-division semantics, which only emits a `RuntimeWarning`). -/
theorem c5_zero_observable_counterexample :
    relSens true false [2] [] [[[3]]] [[0]] = .ok [[[NpF.inf]]] := by rfl

theorem getD_mapIdx_of_lt {α β : Type} (l : List α) (f : ℕ → α → β) {n : ℕ}
    (h : n < l.length) (d : β) (d0 : α) :
    (l.mapIdx f).getD n d = f n (l.getD n d0) := by
  have h2 : n < (l.mapIdx f).length := by rw [List.length_mapIdx]; exact h
  rw [List.getD_eq_getElem?_getD, List.getElem?_eq_getElem h2,
    List.getD_eq_getElem?_getD, List.getElem?_eq_getElem h]
  simp [List.getElem_mapIdx]

theorem getElem?_eq_some_getD {α : Type} (l : List α) {n : ℕ}
    (h : n < l.length) (d : α) : l[n]? = some (l.getD n d) := by
  rw [List.getElem?_eq_getElem h, List.getD_eq_getElem?_getD,
    List.getElem?_eq_getElem h]
  rfl

/-- C5 (amended): in relative-sensitivity mode every sensitivity entry is
multiplied by its row's parameter (or initial-condition) value and divided
elementwise by the observable value at the same time point, with numpy
zero-division semantics: a zero observable value silently yields a
non-finite entry (`±inf`, or `nan` for `0/0`) — no error is raised. -/
theorem c5_relative_sensitivity (hasDfdx0 : Bool) (parameters ode_x0 : List ℚ)
    (s : List (List (List ℚ))) (obs : List (List ℚ))
    (T : List (List (List NpF)))
    (hlen : (if hasDfdx0 then parameters ++ ode_x0 else parameters).length ≤
      s.length)
    (hrect : ∀ r2 ∈ s, obs.length ≤ r2.length)
    (hT : relSens true hasDfdx0 parameters ode_x0 s obs = .ok T) :
    (∀ ii jj tt : ℕ,
      ii < (if hasDfdx0 then parameters ++ ode_x0 else parameters).length →
      jj < obs.length → tt < ((s.getD ii []).getD jj []).length →
      ((T.getD ii []).getD jj []).getD tt NpF.nan =
        npDiv (((s.getD ii []).getD jj []).getD tt 0 *
            (if hasDfdx0 then parameters ++ ode_x0 else parameters).getD ii 1)
          ((obs.getD jj []).getD tt 0)) ∧
    (∀ x : ℚ, x ≠ 0 → npDiv x 0 = NpF.inf ∨ npDiv x 0 = NpF.ninf) ∧
    npDiv 0 0 = NpF.nan := by
  refine ⟨?_, ?_, by simp [npDiv]⟩
  · simp only [relSens, Bool.true_eq_false, if_false] at hT
    rw [if_neg (not_lt.mpr hlen)] at hT
    have hs1len : (s.mapIdx fun ii (r2 : List (List ℚ)) =>
        match (if hasDfdx0 then parameters ++ ode_x0 else parameters)[ii]? with
        | some p => r2.map fun (r1 : List ℚ) => r1.map (· * p)
        | none => r2).length = s.length := by
      rw [List.length_mapIdx]
    have hs1 : ∀ r2 ∈ (s.mapIdx fun ii (r2 : List (List ℚ)) =>
        match (if hasDfdx0 then parameters ++ ode_x0 else parameters)[ii]? with
        | some p => r2.map fun (r1 : List ℚ) => r1.map (· * p)
        | none => r2), obs.length ≤ r2.length := by
      intro r2 hr2
      obtain ⟨i, hi, rfl⟩ := List.mem_iff_getElem.mp hr2
      rw [List.getElem_mapIdx]
      have hilen : i < s.length := by simpa using hi
      have hmem : s[i] ∈ s := List.getElem_mem hilen
      cases hp :
          (if hasDfdx0 then parameters ++ ode_x0 else parameters)[i]? with
      | none => exact hrect _ hmem
      | some p =>
        simp only [List.length_map]
        exact hrect _ hmem
    rw [if_neg (not_not_intro hs1)] at hT
    injection hT with hT
    intro ii jj tt hii hjj htt
    have hiis : ii < s.length := lt_of_lt_of_le hii hlen
    have hjj2 : jj < (s.getD ii []).length :=
      lt_of_lt_of_le hjj (hrect _ (getD_mem hiis []))
    rw [← hT]
    rw [getD_map_of_lt _ _ (by rw [hs1len]; exact hiis) [] []]
    rw [getD_mapIdx_of_lt _ _ hiis [] []]
    rw [getElem?_eq_some_getD _ hii 1]
    rw [getD_mapIdx_of_lt _ _
      (by rw [List.length_map]; exact hjj2) [] []]
    rw [getElem?_eq_some_getD _ hjj []]
    rw [getD_map_of_lt _ _ hjj2 [] []]
    rw [getD_mapIdx_of_lt _ _ (by rw [List.length_map]; exact htt)
      NpF.nan 0]
    rw [getD_map_of_lt _ _ htt 0 0]
  · intro x hx
    rcases hx.lt_or_lt with h | h
    · right
      simp [npDiv, h, h.not_lt]
    · left
      simp [npDiv, h, h.not_lt]

/-! Witnesses: each applies its claim's theorem at a concrete instance and
discharges every hypothesis there. -/

/-- Witness for `c1_S_layout`, at `fsm1` (two combinations × two times). -/
theorem c1_S_layout_witness :
    ([[11, 21, 12, 22]] : List (List ℚ)).length = fsm1.parameters.length ∧
    (∀ row ∈ ([[11, 21, 12, 22]] : List (List ℚ)),
      row.length = fsm1.n_t * (qdims fsm1).prod) ∧
    (∀ i tt c : ℕ, i < fsm1.parameters.length → tt < fsm1.n_t →
      c < (qdims fsm1).prod →
      (([[11, 21, 12, 22]] : List (List ℚ)).getD i []).getD
          (tt * (qdims fsm1).prod + c) 0 =
        ((rFor fsm1 ((prodEnum (qdims fsm1)).getD c [])).getD (1 + i) []).getD
          tt 0) :=
  c1_S_layout fsm1 [[11, 21, 12, 22]]
    [[4/25, 0, 0, 0], [0, 1/25, 0, 0], [0, 0, 1/25, 0], [0, 0, 0, 1/100]]
    [([1, 2], [10], [[10, 20], [11, 12]]), ([1, 2], [20], [[20, 40], [21, 22]])]
    (by rfl) (by decide)

/-- Witness for `c2_singular_covariance`, at `fsm2b` (the prediction is zero
for the second of the two input values). -/
theorem c2_singular_covariance_witness :
    qdims fsm2b = [2] ∧ 1 < 2 ∧ 0 < fsm2b.n_t ∧
    ((rFor fsm2b [1]).headD []).getD 0 0 = 0 ∧
    get_S_matrix fsm2b = .error "numpy.linalg.LinAlgError: Singular matrix" :=
  ⟨by decide, by decide, by decide, by decide,
    c2_singular_covariance fsm2b 2 1 0 (by decide) (by decide) (by decide)
      (by decide)⟩

/-- Witness for `c5_relative_sensitivity`: two sensitivity rows, one
observable row; `hasDfdx0 = true`, so the row factors are the parameter `2`
and the initial condition `3`. -/
theorem c5_relative_sensitivity_witness :
    ((if true then [(2 : ℚ)] ++ [3] else [2]).length ≤
      ([[[1]], [[10]]] : List (List (List ℚ))).length) ∧
    (∀ r2 ∈ ([[[1]], [[10]]] : List (List (List ℚ))),
      ([[4]] : List (List ℚ)).length ≤ r2.length) ∧
    relSens true true [2] [3] [[[1]], [[10]]] [[4]] =
      .ok [[[NpF.num (1/2)]], [[NpF.num (15/2)]]] ∧
    (∀ ii jj tt : ℕ,
      ii < (if true then [(2 : ℚ)] ++ [3] else [2]).length →
      jj < ([[4]] : List (List ℚ)).length →
      tt < ((([[[1]], [[10]]] : List (List (List ℚ))).getD ii []).getD jj
        []).length →
      ((([[[NpF.num (1/2)]], [[NpF.num (15/2)]]] :
            List (List (List NpF))).getD ii []).getD jj []).getD tt NpF.nan =
        npDiv (((([[[1]], [[10]]] : List (List (List ℚ))).getD ii []).getD jj
            []).getD tt 0 *
            (if true then [(2 : ℚ)] ++ [3] else [2]).getD ii 1)
          ((([[4]] : List (List ℚ)).getD jj []).getD tt 0)) :=
  ⟨by decide, by decide, by rfl,
    (c5_relative_sensitivity true [2] [3] [[[1]], [[10]]] [[4]]
      [[[NpF.num (1/2)]], [[NpF.num (15/2)]]] (by decide) (by decide)
      (by rfl)).1⟩

/-- Witness for `c7_enumeration_order`, at `fsmW` (a single combination). -/
theorem c7_enumeration_order_witness :
    ([([1], [2], [[2], [2]])] : List (List ℚ × List ℚ × List (List ℚ))) =
      (prodEnum (qdims fsmW)).map
        (fun index => (fsmW.times index, Qof fsmW index, rFor fsmW index)) ∧
    (prodEnum (qdims fsmW)).length = (qdims fsmW).prod ∧
    (∀ l : List ℕ,
      l ∈ prodEnum (qdims fsmW) ↔ List.Forall₂ (· < ·) l (qdims fsmW)) ∧
    (prodEnum (qdims fsmW)).Pairwise (List.Lex (· < ·)) :=
  c7_enumeration_order fsmW [[2]] [[4]] [([1], [2], [[2], [2]])] (by rfl)

/-- Witness for `c10_covar_false`, at `fsmW`. -/
theorem c10_covar_false_witness :
    calculate_fischer_observable fsmW false =
      .ok (fsmW.observable [[2]]
          (npEyeL (([[2]] : List (List ℚ)).headD []).length), fsmW, [[2]],
        npEyeL (([[2]] : List (List ℚ)).headD []).length,
        [([1], [2], [[2], [2]])]) ∧
    (fsmW.parameters.length ≠ 0 →
      (([[2]] : List (List ℚ)).headD []).length =
        fsmW.n_t * (qdims fsmW).prod) :=
  c10_covar_false fsmW [[2]] [[4]] [([1], [2], [[2], [2]])] (by rfl)

end FisInMa
